import Mathlib

/-!
Shallow embedding of the locksearch core (src/search.rs and src/indexer.rs).

Modelling conventions:
* Rust `String` is Lean `String`; Rust `to_lowercase` is modelled by ASCII
  case folding (`strToLower`), Rust byte-lexicographic `String` ordering
  coincides with Lean codepoint-lexicographic `String.lt`.
* The `fuzzy_matcher` crate's `SkimMatcherV2.fuzzy_match` is an external
  dependency; the search engine is embedded parametrically in a
  `matcher : String → String → Option Int` argument (`fuzzy_match(choice,
  pattern)` returning `Option<i64>`).
* Rust's stable `sort_by(cmp)` is modelled by `List.insertionSort r` where
  `r a b ↔ cmp(a,b) ≠ Greater`: both are stable sorts w.r.t. the same total
  preorder, hence extensionally equal.
* The filesystem walk is abstracted as an input list of `FileRec` records;
  shortcut (.lnk) resolution outcome is part of the record (`lnk = none`
  models both a parse error and a caught panic of the lnk crate; the
  `link_info`/`local_base_path` chain is collapsed into one
  `Option String`, both `None` levels yielding the same fallback).
* Icon extraction (`extract_icon`) is filesystem- and platform-dependent;
  it is abstracted as a parameter `icon : String → String → Option String`
  taking the resolved target path and the display name.
-/

/-- Where the program was found (`ProgramSource` in indexer.rs). -/
inductive ProgramSource where
  | StartMenu
  | ProgramFiles
deriving DecidableEq, Repr

/-- A program/executable entry (`ProgramEntry` in indexer.rs). -/
structure ProgramEntry where
  path : String
  name : String
  display_name : String
  source : ProgramSource
  icon_path : Option String
deriving DecidableEq, Repr

/-- Search result with score (`SearchResult` in search.rs). -/
structure SearchResult where
  entry : ProgramEntry
  score : Int
deriving DecidableEq, Repr

/-- ASCII model of Rust `str::to_lowercase`. -/
def strToLower (s : String) : String :=
  String.mk (s.data.map Char.toLower)

/-- Model of Rust `str::starts_with` (char list version; on UTF-8 both agree). -/
def strStartsWith (s pre : String) : Bool :=
  pre.data.isPrefixOf s.data

/-- Model of Rust `str::contains` for a literal pattern: some contiguous
substring of `s` equals `pat`. -/
def strContains (s pat : String) : Bool :=
  (List.range (s.data.length + 1)).any (fun i => pat.data.isPrefixOf (s.data.drop i))

/-- Rust `Option::<i64>::max` (`None` is smallest). -/
def optMax : Option Int → Option Int → Option Int
  | none, b => b
  | some a, none => some a
  | some a, some b => some (max a b)

/-- The per-entry body of the `filter_map` closure in `SearchEngine::search`
(search.rs lines 48–75): score an entry against the lowercased query, or
drop it when neither target matches. -/
def scoreEntry (matcher : String → String → Option Int) (query_lower : String)
    (entry : ProgramEntry) : Option SearchResult :=
  let display_score := matcher (strToLower entry.display_name) query_lower
  let name_score := matcher entry.name query_lower
  match optMax display_score name_score with
  | none => none
  | some base_score =>
    let source_boost : Int :=
      match entry.source with
      | ProgramSource.StartMenu => 50
      | ProgramSource.ProgramFiles => 0
    let prefix_boost : Int :=
      if strStartsWith (strToLower entry.display_name) query_lower then 100 else 0
    some { entry := entry, score := base_score + source_boost + prefix_boost }

/-- Comparator of the result sort in `SearchEngine::search` (search.rs line
79): `sort_by(|a, b| b.score.cmp(&a.score))`, as the relation
`cmp(a,b) ≠ Greater`, i.e. score descending. -/
def searchRel (a b : SearchResult) : Prop :=
  b.score ≤ a.score

instance : DecidableRel searchRel := fun a b => Int.decLe b.score a.score

instance : IsTotal SearchResult searchRel :=
  ⟨fun a b => Int.le_total b.score a.score⟩

instance : IsTrans SearchResult searchRel :=
  ⟨fun _ _ _ h h' => le_trans h' h⟩

/-- `SearchEngine::search` (search.rs lines 31–85), parametric in the skim
fuzzy matcher. -/
def search (matcher : String → String → Option Int) (query : String)
    (entries : List ProgramEntry) : List SearchResult :=
  if query = "" then
    (entries.take 20).map (fun e => { entry := e, score := 0 })
  else
    let query_lower := strToLower query
    let results := entries.filterMap (scoreEntry matcher query_lower)
    (results.insertionSort searchRel).take 50

/-- Shortcut metadata obtained from a successfully parsed .lnk file: the
optional embedded name (`lnk.name()`) and the optional resolved local base
path (`link_info().local_base_path()`, the two `Option` levels collapsed). -/
structure LnkData where
  name : Option String
  localBasePath : Option String
deriving DecidableEq, Repr

/-- One file met by the walk: its path, whether it is a regular file, its
raw extension and stem (`None` when unobtainable), and the outcome of
shortcut resolution (`none` models a parse error or a caught panic of the
lnk crate). -/
structure FileRec where
  path : String
  isFile : Bool
  extension : Option String
  stem : Option String
  lnk : Option LnkData
deriving DecidableEq, Repr

/-- `get_display_name_and_target` (indexer.rs lines 276–314): display name
and target path for a walked file, falling back to the file stem (then
"Unknown") and the file's own path when it is not a resolvable shortcut. -/
def get_display_name_and_target (f : FileRec) (ext : Option String) : String × String :=
  if ext = some "lnk" then
    match f.lnk with
    | some l =>
      let name := Option.filter (fun s => !(s == "")) l.name
      let target :=
        match l.localBasePath with
        | some bp => bp
        | none => f.path
      (name.getD (f.stem.getD "Unknown"), target)
    | none => (f.stem.getD "Unknown", f.path)
  else
    (f.stem.getD "Unknown", f.path)

/-- Allowed extensions per source (indexer.rs lines 210–213). -/
def extensionsFor : ProgramSource → List String
  | ProgramSource.StartMenu => ["lnk"]
  | ProgramSource.ProgramFiles => ["exe"]

/-- The uninstaller/updater stem filter (indexer.rs lines 245–250). -/
def excludedStem (name_lower : String) : Bool :=
  strContains name_lower "uninstall" || strContains name_lower "uninst" ||
    strContains name_lower "update" || strContains name_lower "updater" ||
    strContains name_lower "setup"

/-- The loop body of `index_directory` (indexer.rs lines 215–273) for one
walked file, acting on the state (working list `programs`, dedup key map
`seen`); `icon` abstracts `extract_icon` (target path, display name ↦
optional icon path). -/
def processFile (icon : String → String → Option String) (source : ProgramSource)
    (st : List ProgramEntry × List String) (f : FileRec) :
    List ProgramEntry × List String :=
  if !f.isFile then st
  else
    let ext := f.extension.map strToLower
    let is_valid_ext := (ext.map (fun e => (extensionsFor source).contains e)).getD false
    if !is_valid_ext then st
    else
      let name_lower := (f.stem.map strToLower).getD ""
      if excludedStem name_lower then st
      else
        let dt := get_display_name_and_target f ext
        let key := strToLower dt.1
        if st.2.contains key then st
        else
          let icon_path := icon dt.2 dt.1
          (st.1 ++ [{ path := f.path, name := name_lower, display_name := dt.1,
                      source := source, icon_path := icon_path }],
           key :: st.2)

/-- `index_directory` (indexer.rs lines 198–274), the walk abstracted as the
list of files it yields in traversal order. -/
def index_directory (icon : String → String → Option String) (source : ProgramSource)
    (files : List FileRec) (st : List ProgramEntry × List String) :
    List ProgramEntry × List String :=
  files.foldl (processFile icon source) st

/-- The scan loop of `start_indexing` (indexer.rs lines 124–144): fold
`index_directory` over the (source, walked files) pairs — Start Menu roots
first, then Program Files roots — with one shared working list and dedup
map. -/
def scanWorking (icon : String → String → Option String)
    (dirs : List (ProgramSource × List FileRec)) :
    List ProgramEntry × List String :=
  dirs.foldl (fun st d => index_directory icon d.1 d.2 st) ([], [])

/-- Source priority used by the final sort (indexer.rs lines 148–155). -/
def sourcePriority : ProgramSource → Nat
  | ProgramSource.StartMenu => 0
  | ProgramSource.ProgramFiles => 1

/-- Comparator of the final sort in `start_indexing` (indexer.rs lines
147–157): `priority.cmp.then_with(display_name.cmp) ≠ Greater`. -/
def charLt : Char → Char → Prop := fun c d => c < d

instance : DecidableRel charLt := fun c d => Nat.decLt c.toNat d.toNat

instance : IsStrictTotalOrder Char charLt :=
  inferInstanceAs (IsStrictTotalOrder Char (· < ·))

/-- Rust byte-lexicographic `String` order, as codepoint-lexicographic
order on the char list (the two coincide on UTF-8). -/
def strLt (a b : String) : Prop := List.Lex charLt a.data b.data

instance : DecidableRel strLt := fun a b =>
  List.Lex.decidableRel charLt a.data b.data

def entryRel (a b : ProgramEntry) : Prop :=
  sourcePriority a.source < sourcePriority b.source ∨
    (sourcePriority a.source = sourcePriority b.source ∧
      ¬ strLt b.display_name a.display_name)

instance : DecidableRel entryRel := fun a b =>
  inferInstanceAs (Decidable (sourcePriority a.source < sourcePriority b.source ∨
    (sourcePriority a.source = sourcePriority b.source ∧
      ¬ strLt b.display_name a.display_name)))

instance : IsTotal ProgramEntry entryRel := by
  constructor
  intro a b
  rcases Nat.lt_trichotomy (sourcePriority a.source) (sourcePriority b.source) with h | h | h
  · exact Or.inl (Or.inl h)
  · by_cases hl : strLt b.display_name a.display_name
    · exact Or.inr (Or.inr ⟨h.symm, (List.Lex.isAsymm charLt).asymm _ _ hl⟩)
    · exact Or.inl (Or.inr ⟨h, hl⟩)
  · exact Or.inr (Or.inl h)

instance : IsTrans ProgramEntry entryRel := by
  constructor
  intro a b c hab hbc
  rcases hab with h | ⟨he, hd⟩
  · rcases hbc with h' | ⟨he', _⟩
    · exact Or.inl (h.trans h')
    · exact Or.inl (he' ▸ h)
  · rcases hbc with h' | ⟨he', hd'⟩
    · exact Or.inl (he ▸ h')
    · refine Or.inr ⟨he.trans he', fun hca => ?_⟩
      rcases trichotomous_of (List.Lex charLt)
          b.display_name.data c.display_name.data with hbc' | hbc' | hbc'
      · exact hd (trans_of (List.Lex charLt) hbc' hca)
      · exact hd (String.ext hbc' ▸ hca)
      · exact hd' hbc'

/-- The final stable sort of `start_indexing` (indexer.rs lines 147–157). -/
def finalizeSort (programs : List ProgramEntry) : List ProgramEntry :=
  programs.insertionSort entryRel

/-- One whole scan: walk all roots, dedup, then finalize; the resulting
list is what `start_indexing` publishes to the store. -/
def runScan (icon : String → String → Option String)
    (dirs : List (ProgramSource × List FileRec)) : List ProgramEntry :=
  finalizeSort (scanWorking icon dirs).1

/-- The shared state of `ProgramIndex` (indexer.rs lines 27–33): published
entries, published count, in-progress flag. -/
structure StoreState where
  entries : List ProgramEntry
  indexed_count : Nat
  is_indexing : Bool
deriving DecidableEq, Repr

/-- `ProgramIndex::new` (indexer.rs lines 42–62): empty published state. -/
def newStore : StoreState :=
  { entries := [], indexed_count := 0, is_indexing := false }

/-- Outcome of looking for and reading the persistent snapshot file. -/
inductive CacheRead where
  | missing
  | unreadable
  | unparseable
  | parsed (entries : List ProgramEntry)
deriving DecidableEq, Repr

/-- `ProgramIndex::load_cache` (indexer.rs lines 77–99): returns whether the
cache was loaded, and the store state afterwards. -/
def load_cache (disk : CacheRead) (st : StoreState) : Bool × StoreState :=
  match disk with
  | CacheRead.missing => (false, st)
  | CacheRead.unreadable => (false, st)
  | CacheRead.unparseable => (false, st)
  | CacheRead.parsed cached =>
    (true, { st with entries := cached, indexed_count := cached.length })

/-- The head of `start_indexing` (indexer.rs lines 109–115): set the
in-progress flag (the no-op case when a scan is already running leaves the
state unchanged, so it is covered by reflexivity of state). -/
def begin_scan (st : StoreState) : StoreState :=
  { st with is_indexing := true }

/-- Scan completion (indexer.rs lines 159–175): publish the finalized list
and its length, clear the in-progress flag. -/
def finish_scan (programs : List ProgramEntry) (st : StoreState) : StoreState :=
  { st with entries := programs, indexed_count := programs.length, is_indexing := false }

/-- States of the store reachable through its published operations. -/
inductive Reachable : StoreState → Prop where
  | init : Reachable newStore
  | load (d : CacheRead) (st : StoreState) : Reachable st → Reachable (load_cache d st).2
  | begin (st : StoreState) : Reachable st → Reachable (begin_scan st)
  | finish (ps : List ProgramEntry) (st : StoreState) :
      Reachable st → Reachable (finish_scan ps st)

/-! Refinement layer: the per-file filters and name resolution of
`index_directory`, repackaged as a candidate stream, and first-occurrence
dedup over that stream. These definitions restate the spec's account of the
scan ("compute a dedup key…; if already seen during this scan, skip") and
are proved equivalent to the fold of `processFile`. -/

/-- A file that passed the filters of `index_directory`, with its resolved
display name and target. -/
structure Candidate where
  file : FileRec
  source : ProgramSource
  name_lower : String
  display_name : String
  target : String
deriving DecidableEq, Repr

/-- The filter stages of the `index_directory` loop, as a partial
projection to a `Candidate`. -/
def candidateOf (source : ProgramSource) (f : FileRec) : Option Candidate :=
  if !f.isFile then none
  else
    let ext := f.extension.map strToLower
    let is_valid_ext := (ext.map (fun e => (extensionsFor source).contains e)).getD false
    if !is_valid_ext then none
    else
      let name_lower := (f.stem.map strToLower).getD ""
      if excludedStem name_lower then none
      else
        let dt := get_display_name_and_target f ext
        some { file := f, source := source, name_lower := name_lower,
               display_name := dt.1, target := dt.2 }

/-- Dedup key of a candidate. -/
def candKey (c : Candidate) : String :=
  strToLower c.display_name

/-- The entry built from a surviving candidate. -/
def mkEntry (icon : String → String → Option String) (c : Candidate) : ProgramEntry :=
  { path := c.file.path, name := c.name_lower, display_name := c.display_name,
    source := c.source, icon_path := icon c.target c.display_name }

/-- First-occurrence dedup over a candidate stream: keep a candidate iff
its key was not seen before. -/
def dedupFirst (cs : List Candidate) (seen : List String) : List Candidate :=
  match cs with
  | [] => []
  | c :: rest =>
    if seen.contains (candKey c) then dedupFirst rest seen
    else c :: dedupFirst rest (candKey c :: seen)

/-- The seen-key set after consuming a candidate stream. -/
def dedupSeen (cs : List Candidate) (seen : List String) : List String :=
  match cs with
  | [] => seen
  | c :: rest =>
    if seen.contains (candKey c) then dedupSeen rest seen
    else dedupSeen rest (candKey c :: seen)

/-- All candidates of a scan, in source-priority-then-traversal order. -/
def allCandidates (dirs : List (ProgramSource × List FileRec)) : List Candidate :=
  dirs.flatMap (fun d => d.2.filterMap (candidateOf d.1))

/-- Forget the icon path of an entry (used to state that the icon
extractor influences nothing else). -/
def stripIcon (e : ProgramEntry) : ProgramEntry :=
  { e with icon_path := none }

/-- Greedy subsequence check: every character of the first list appears in
order in the second. -/
def isSubseqOf : List Char → List Char → Bool
  | [], _ => true
  | _ :: _, [] => false
  | a :: as, b :: bs => if a == b then isSubseqOf as bs else isSubseqOf (a :: as) bs

/-- Modelled from the spec: the spec leaves the fuzzy matcher abstract ("an
ordered-subsequence scoring scheme: all query characters must appear in
order in the target … exact algorithm choice is an implementation detail");
this is the simplest such matcher (flat score 0 on any ordered-subsequence
match), used to instantiate the parametric matcher at concrete inputs. -/
def subseqMatcher (target query : String) : Option Int :=
  if isSubseqOf query.data target.data then some 0 else none

/-- Icon extractor that always fails (allowed: extraction is best-effort). -/
def noIcon : String → String → Option String := fun _ _ => none

/-- A matched entry used in concrete instantiations. -/
def eKeep : ProgramEntry :=
  { path := "C:/pf/aa.exe", name := "", display_name := "aa",
    source := ProgramSource.ProgramFiles, icon_path := none }

/-- An entry whose display name matches the query "a" as a subsequence but
not as a word start. -/
def eStar : ProgramEntry :=
  { path := "C:/pf/ba.exe", name := "", display_name := "ba",
    source := ProgramSource.ProgramFiles, icon_path := none }

/-- An entry that does not match the query "q" at all. -/
def eMiss : ProgramEntry :=
  { path := "C:/pf/zz.exe", name := "zz", display_name := "zz",
    source := ProgramSource.ProgramFiles, icon_path := none }

/-- Fifty entries that match and outscore `eStar`, followed by `eStar`. -/
def cxEntries : List ProgramEntry :=
  List.replicate 50 eKeep ++ [eStar]

/-- Sample entries of the final-order test of the spec. -/
def zetaE : ProgramEntry :=
  { path := "", name := "zeta", display_name := "Zeta",
    source := ProgramSource.ProgramFiles, icon_path := none }

def alphaE : ProgramEntry :=
  { path := "", name := "alpha", display_name := "Alpha",
    source := ProgramSource.StartMenu, icon_path := none }

def betaE : ProgramEntry :=
  { path := "", name := "beta", display_name := "Beta",
    source := ProgramSource.StartMenu, icon_path := none }

/-- A malformed shortcut file: the lnk parse failed (`lnk = none`). -/
def fooRec : FileRec :=
  { path := "C:/sm/Foo.lnk", isFile := true, extension := some "lnk",
    stem := some "Foo", lnk := none }

/-- A successfully resolved shortcut whose target differs from its own
path. -/
def barRec : FileRec :=
  { path := "C:/sm/Bar.lnk", isFile := true, extension := some "lnk",
    stem := some "Bar",
    lnk := some { name := some "Bar App", localBasePath := some "C:/target/bar.exe" } }

/-- A resolved shortcut whose embedded name is absent. -/
def bazRec : FileRec :=
  { path := "C:/sm/Baz.lnk", isFile := true, extension := some "lnk",
    stem := some "Baz", lnk := some { name := none, localBasePath := none } }

/-- An icon extractor that always succeeds, echoing the target path it was
given (used to observe which fields depend on icon extraction). -/
def tagIcon : String → String → Option String := fun t _ => some t

/-- The entry barRec produces under noIcon. -/
def entryBar : ProgramEntry :=
  { path := "C:/sm/Bar.lnk", name := "bar", display_name := "Bar App",
    source := ProgramSource.StartMenu, icon_path := none }

/-! ## Search engine lemmas -/

lemma optMax_eq_none_iff (a b : Option Int) : optMax a b = none ↔ a = none ∧ b = none := by
  cases a <;> cases b <;> simp [optMax]

lemma scoreEntry_eq_none_iff (m : String → String → Option Int) (q : String)
    (e : ProgramEntry) :
    scoreEntry m q e = none ↔
      m (strToLower e.display_name) q = none ∧ m e.name q = none := by
  cases hd : m (strToLower e.display_name) q <;> cases hn : m e.name q <;>
    simp [scoreEntry, hd, hn, optMax]

lemma scoreEntry_eq_some_of (m : String → String → Option Int) (q : String)
    (e : ProgramEntry) (b : Int)
    (hb : optMax (m (strToLower e.display_name) q) (m e.name q) = some b) :
    scoreEntry m q e = some
      { entry := e,
        score := b + (if e.source = ProgramSource.StartMenu then 50 else 0) +
          (if strStartsWith (strToLower e.display_name) q then 100 else 0) } := by
  cases hs : e.source <;> simp [scoreEntry, hb, hs]

lemma scoreEntry_some_entry {m : String → String → Option Int} {q : String}
    {e : ProgramEntry} {r : SearchResult} (h : scoreEntry m q e = some r) :
    r.entry = e := by
  cases hb : optMax (m (strToLower e.display_name) q) (m e.name q) with
  | none =>
    rw [(scoreEntry_eq_none_iff m q e).mpr ((optMax_eq_none_iff _ _).mp hb)] at h
    exact absurd h (by simp)
  | some b =>
    rw [scoreEntry_eq_some_of m q e b hb] at h
    cases h
    rfl

lemma scoreEntry_some_score {m : String → String → Option Int} {q : String}
    {e : ProgramEntry} {r : SearchResult} (h : scoreEntry m q e = some r)
    (b : Int) (hb : optMax (m (strToLower e.display_name) q) (m e.name q) = some b) :
    r.score = b + (if e.source = ProgramSource.StartMenu then 50 else 0) +
      (if strStartsWith (strToLower e.display_name) q then 100 else 0) := by
  rw [scoreEntry_eq_some_of m q e b hb] at h
  cases h
  rfl

lemma search_eq_of_ne (m : String → String → Option Int) (q : String)
    (entries : List ProgramEntry) (hq : q ≠ "") :
    search m q entries
      = ((entries.filterMap (scoreEntry m (strToLower q))).insertionSort searchRel).take 50 := by
  simp [search, hq]

lemma filter_insertionSort_eq {α : Type} (r : α → α → Prop) [DecidableRel r]
    [IsTotal α r] [IsTrans α r] (p : α → Bool)
    (hp : ∀ a b, p a = true → p b = true → r a b) (l : List α) :
    (l.insertionSort r).filter p = l.filter p := by
  have hpw : (l.filter p).Pairwise r :=
    List.pairwise_of_forall_mem_list
      (fun a ha b hb => hp a b (List.of_mem_filter ha) (List.of_mem_filter hb))
  have h1 : List.Sublist (l.filter p) (l.insertionSort r) :=
    List.sublist_insertionSort hpw (List.filter_sublist l)
  have h2 : List.Perm ((l.insertionSort r).filter p) (l.filter p) :=
    (List.perm_insertionSort r l).filter p
  have h3 : List.Sublist (l.filter p) ((l.insertionSort r).filter p) := by
    have h4 := h1.filter p
    rwa [List.filter_eq_self.mpr (fun a ha => List.of_mem_filter ha)] at h4
  exact (h3.eq_of_length h2.length_eq.symm).symm

/-- C1 (amended): for every non-empty query and every listed entry, the
entry is excluded from the surviving scored results — the matches computed
before the final sort and the 50-result truncation — iff the fuzzy match of
the lowercased query fails against both the lowercased display name and the
stored short name; the returned list is exactly the surviving results
stably sorted by score descending and truncated to 50, so a surviving
entry can be absent from it only through that cap (in particular every
returned result is a surviving result); and any surviving result for the
entry scores the best match score, plus a source bonus of 50 exactly when
the source is StartMenu, plus a prefix bonus of 100 exactly when the
lowercased display name starts with the lowercased query. -/
theorem search_excluded_iff_no_match (matcher : String → String → Option Int)
    (q : String) (entries : List ProgramEntry) (e : ProgramEntry)
    (hq : q ≠ "") (he : e ∈ entries) :
    ((matcher (strToLower e.display_name) (strToLower q) = none ∧
        matcher e.name (strToLower q) = none) ↔
      ∀ r ∈ entries.filterMap (scoreEntry matcher (strToLower q)), r.entry ≠ e)
    ∧ search matcher q entries
      = ((entries.filterMap (scoreEntry matcher (strToLower q))).insertionSort
          searchRel).take 50
    ∧ (∀ r ∈ search matcher q entries,
        r ∈ entries.filterMap (scoreEntry matcher (strToLower q)))
    ∧ (∀ r ∈ entries.filterMap (scoreEntry matcher (strToLower q)), r.entry = e →
        ∀ b : Int,
          optMax (matcher (strToLower e.display_name) (strToLower q))
              (matcher e.name (strToLower q)) = some b →
          r.score = b + (if e.source = ProgramSource.StartMenu then 50 else 0) +
            (if strStartsWith (strToLower e.display_name) (strToLower q) then 100 else 0)) := by
  refine ⟨⟨?_, ?_⟩, search_eq_of_ne matcher q entries hq, ?_, ?_⟩
  · rintro ⟨h1, h2⟩ r hr hre
    obtain ⟨a, _, hsa⟩ := List.mem_filterMap.mp hr
    have ha : a = e := (scoreEntry_some_entry hsa).symm.trans hre
    subst ha
    rw [(scoreEntry_eq_none_iff matcher (strToLower q) a).mpr ⟨h1, h2⟩] at hsa
    exact absurd hsa (by simp)
  · intro hall
    cases hb : optMax (matcher (strToLower e.display_name) (strToLower q))
        (matcher e.name (strToLower q)) with
    | none => exact (optMax_eq_none_iff _ _).mp hb
    | some b =>
      exfalso
      have hr : ({ entry := e,
                   score := b + (if e.source = ProgramSource.StartMenu then 50 else 0) +
                     (if strStartsWith (strToLower e.display_name) (strToLower q)
                       then 100 else 0) } : SearchResult)
          ∈ entries.filterMap (scoreEntry matcher (strToLower q)) :=
        List.mem_filterMap.mpr ⟨e, he, scoreEntry_eq_some_of matcher (strToLower q) e b hb⟩
      exact hall _ hr rfl
  · intro r hr
    rw [search_eq_of_ne matcher q entries hq] at hr
    exact (List.mem_insertionSort searchRel).mp (List.mem_of_mem_take hr)
  · intro r hr hre b hb
    obtain ⟨a, _, hsa⟩ := List.mem_filterMap.mp hr
    have ha : a = e := (scoreEntry_some_entry hsa).symm.trans hre
    subst ha
    exact scoreEntry_some_score hsa b hb

/-- C1 witness: concrete instantiation of the amended claim; the
non-matching entry eMiss survives nowhere, so the iff yields that both
match attempts fail. -/
theorem search_excluded_iff_no_match_witness :
    subseqMatcher (strToLower eMiss.display_name) (strToLower "q") = none ∧
      subseqMatcher eMiss.name (strToLower "q") = none :=
  (search_excluded_iff_no_match subseqMatcher "q" [eMiss] eMiss
    (by decide) (by decide)).1.mpr (by decide)

/-- C1 counterexample: with 51 entries all fuzzily matching the query "a",
the lowest-ranked matching entry eStar is excluded from the returned
results by the 50-result truncation, refuting "search excludes the entry
iff the fuzzy match fails against both targets" as stated. -/
theorem search_excluded_iff_no_match_counterexample :
    eStar ∈ cxEntries ∧
      subseqMatcher (strToLower eStar.display_name) (strToLower "a") = some 0 ∧
      ∀ r ∈ search subseqMatcher "a" cxEntries, r.entry ≠ eStar := by decide

/-- C2: for every non-empty query the returned list is sorted by score
descending; the sort is stable — for every score value, the returned
results carrying that score form a prefix of the surviving scored results
carrying that score, which are generated in input (original index) order —
and at most 50 results are returned. -/
theorem search_sorted_stable_capped (matcher : String → String → Option Int)
    (q : String) (entries : List ProgramEntry) (hq : q ≠ "") :
    List.Pairwise (fun a b => b.score ≤ a.score) (search matcher q entries)
    ∧ (search matcher q entries).length ≤ 50
    ∧ ∀ s : Int, List.IsPrefix
        ((search matcher q entries).filter (fun r : SearchResult => decide (r.score = s)))
        ((entries.filterMap (scoreEntry matcher (strToLower q))).filter
          (fun r : SearchResult => decide (r.score = s))) := by
  rw [search_eq_of_ne matcher q entries hq]
  refine ⟨?_, ?_, ?_⟩
  · exact List.Pairwise.sublist (List.take_sublist 50 _)
      (List.sorted_insertionSort searchRel _)
  · exact List.length_take_le 50 _
  · intro s
    have hfil := filter_insertionSort_eq searchRel (fun r => decide (r.score = s))
      (fun a b ha hb => by
        simp only [decide_eq_true_eq] at ha hb
        show b.score ≤ a.score
        rw [ha, hb])
      (entries.filterMap (scoreEntry matcher (strToLower q)))
    rw [← hfil]
    exact ( List.take_prefix 50 _).filter (fun r : SearchResult => decide (r.score = s))

/-- C2 witness: concrete instantiation, the cap on a one-entry search. -/
theorem search_sorted_stable_capped_witness :
    (search subseqMatcher "a" [eKeep]).length ≤ 50 :=
  (search_sorted_stable_capped subseqMatcher "a" [eKeep] (by decide)).2.1

/-- C3: the empty query returns exactly the first min(20, n) entries in
their stored order, each with score 0. -/
theorem search_empty_query (matcher : String → String → Option Int)
    (entries : List ProgramEntry) :
    (search matcher "" entries).map SearchResult.entry = entries.take 20
    ∧ (search matcher "" entries).length = min 20 entries.length
    ∧ ∀ r ∈ search matcher "" entries, r.score = 0 := by
  have hs : search matcher "" entries
      = (entries.take 20).map (fun e => { entry := e, score := 0 }) := by
    simp [search]
  refine ⟨?_, ?_, ?_⟩
  · have hid : SearchResult.entry ∘ (fun e => ({ entry := e, score := 0 } : SearchResult))
        = id := rfl
    simp [hs, List.map_map, hid]
  · simp [hs]
  · intro r hr
    rw [hs] at hr
    obtain ⟨a, ha, hra⟩ := List.mem_map.mp hr
    rw [← hra]

/-- C3 witness: concrete instantiation on a one-entry list. -/
theorem search_empty_query_witness :
    ({ entry := eKeep, score := 0 } : SearchResult).score = 0 :=
  (search_empty_query subseqMatcher [eKeep]).2.2 _ (by decide)

/-! ## Indexer lemmas -/

/-- C4: the finalized list handed to the store is sorted by (source
priority ascending, display name ascending, case-sensitive); the sort is
stable — it permutes the working list and entries tied on both sort keys
keep their working-list order — and the spec's concrete example
[Zeta/secondary, Alpha/primary, Beta/primary] is published as
[Alpha, Beta, Zeta]. -/
theorem finalize_sort_order :
    (∀ l : List ProgramEntry,
      List.Sorted entryRel (finalizeSort l)
      ∧ List.Perm (finalizeSort l) l
      ∧ ∀ (p : Nat) (d : String),
          (finalizeSort l).filter
              (fun e : ProgramEntry => decide (sourcePriority e.source = p ∧ e.display_name = d))
            = l.filter
              (fun e : ProgramEntry => decide (sourcePriority e.source = p ∧ e.display_name = d)))
    ∧ finalizeSort [zetaE, alphaE, betaE] = [alphaE, betaE, zetaE] := by
  constructor
  · intro l
    refine ⟨List.sorted_insertionSort entryRel l, List.perm_insertionSort entryRel l, ?_⟩
    intro p d
    apply filter_insertionSort_eq
    intro a b ha hb
    simp only [decide_eq_true_eq] at ha hb
    refine Or.inr ⟨ha.1.trans hb.1.symm, ?_⟩
    rw [hb.2, ha.2]
    exact fun h => (List.Lex.isAsymm charLt).asymm _ _ h h
  · decide

lemma processFile_eq_candidate (icon : String → String → Option String)
    (source : ProgramSource) (st : List ProgramEntry × List String) (f : FileRec) :
    processFile icon source st f =
      match candidateOf source f with
      | none => st
      | some c =>
        if st.2.contains (candKey c) then st
        else (st.1 ++ [mkEntry icon c], candKey c :: st.2) := by
  simp only [processFile, candidateOf]
  repeat' split
  all_goals (try subst_eqs)
  all_goals simp_all [mkEntry, candKey]

lemma index_directory_eq (icon : String → String → Option String)
    (source : ProgramSource) (files : List FileRec) :
    ∀ st : List ProgramEntry × List String,
      index_directory icon source files st
        = (st.1 ++ (dedupFirst (files.filterMap (candidateOf source)) st.2).map (mkEntry icon),
           dedupSeen (files.filterMap (candidateOf source)) st.2) := by
  induction files with
  | nil => intro st; simp [index_directory, dedupFirst, dedupSeen]
  | cons f fs ih =>
    intro st
    have hstep : index_directory icon source (f :: fs) st
        = index_directory icon source fs (processFile icon source st f) := rfl
    rw [hstep, processFile_eq_candidate]
    cases hc : candidateOf source f with
    | none => simp [hc, ih]
    | some c =>
      rw [ih]
      by_cases hk : candKey c ∈ st.2
      · simp [hc, hk, dedupFirst, dedupSeen]
      · simp [hc, hk, dedupFirst, dedupSeen, List.append_assoc]

lemma dedupFirst_append (as bs : List Candidate) :
    ∀ seen, dedupFirst (as ++ bs) seen
      = dedupFirst as seen ++ dedupFirst bs (dedupSeen as seen) := by
  induction as with
  | nil => intro seen; simp [dedupFirst, dedupSeen]
  | cons a as ih =>
    intro seen
    by_cases h : candKey a ∈ seen <;> simp [dedupFirst, dedupSeen, h, ih]

lemma dedupSeen_append (as bs : List Candidate) :
    ∀ seen, dedupSeen (as ++ bs) seen = dedupSeen bs (dedupSeen as seen) := by
  induction as with
  | nil => intro seen; simp [dedupSeen]
  | cons a as ih =>
    intro seen
    by_cases h : candKey a ∈ seen <;> simp [dedupSeen, h, ih]

lemma scan_fold_eq (icon : String → String → Option String)
    (dirs : List (ProgramSource × List FileRec)) :
    ∀ st : List ProgramEntry × List String,
      dirs.foldl (fun st d => index_directory icon d.1 d.2 st) st
        = (st.1 ++ (dedupFirst (allCandidates dirs) st.2).map (mkEntry icon),
           dedupSeen (allCandidates dirs) st.2) := by
  induction dirs with
  | nil => intro st; simp [allCandidates, dedupFirst, dedupSeen]
  | cons d dirs ih =>
    intro st
    rw [List.foldl_cons, index_directory_eq, ih]
    have hall : allCandidates (d :: dirs)
        = d.2.filterMap (candidateOf d.1) ++ allCandidates dirs := by
      simp [allCandidates]
    rw [hall, dedupFirst_append, dedupSeen_append]
    simp [List.append_assoc]

lemma scanWorking_eq (icon : String → String → Option String)
    (dirs : List (ProgramSource × List FileRec)) :
    scanWorking icon dirs
      = ((dedupFirst (allCandidates dirs) []).map (mkEntry icon),
         dedupSeen (allCandidates dirs) []) := by
  have h := scan_fold_eq icon dirs ([], [])
  simpa [scanWorking] using h

lemma dedupFirst_cons_mem {c : Candidate} {rest : List Candidate} {seen : List String}
    (h : candKey c ∈ seen) : dedupFirst (c :: rest) seen = dedupFirst rest seen := by
  simp [dedupFirst, h]

lemma dedupFirst_cons_not_mem {c : Candidate} {rest : List Candidate} {seen : List String}
    (h : candKey c ∉ seen) :
    dedupFirst (c :: rest) seen = c :: dedupFirst rest (candKey c :: seen) := by
  simp [dedupFirst, h]

lemma dedupFirst_key_props (cs : List Candidate) :
    ∀ seen, ((dedupFirst cs seen).map candKey).Nodup
      ∧ ∀ c ∈ dedupFirst cs seen, candKey c ∉ seen := by
  induction cs with
  | nil => intro seen; simp [dedupFirst]
  | cons c rest ih =>
    intro seen
    by_cases h : candKey c ∈ seen
    · simpa [dedupFirst, h] using ih seen
    · have ihc := ih (candKey c :: seen)
      rw [dedupFirst_cons_not_mem h]
      refine ⟨?_, ?_⟩
      · simp only [List.map_cons, List.nodup_cons]
        refine ⟨?_, ihc.1⟩
        intro hmem
        obtain ⟨c', hc', hk⟩ := List.mem_map.mp hmem
        exact (ihc.2 c' hc') (hk ▸ List.mem_cons_self _ _)
      · intro c' hc'
        rcases List.mem_cons.mp hc' with rfl | hc'
        · exact h
        · exact fun hmem => (ihc.2 c' hc') (List.mem_cons_of_mem _ hmem)

lemma dedupFirst_sublist (cs : List Candidate) :
    ∀ seen, List.Sublist (dedupFirst cs seen) cs := by
  induction cs with
  | nil => intro seen; simp [dedupFirst]
  | cons c rest ih =>
    intro seen
    by_cases h : candKey c ∈ seen
    · rw [dedupFirst_cons_mem h]
      exact List.Sublist.cons c (ih seen)
    · rw [dedupFirst_cons_not_mem h]
      exact List.Sublist.cons₂ c (ih (candKey c :: seen))

lemma candidateOf_some {source : ProgramSource} {f : FileRec} {c : Candidate}
    (h : candidateOf source f = some c) :
    c.file = f ∧ c.source = source
      ∧ c.display_name = (get_display_name_and_target f (f.extension.map strToLower)).1
      ∧ c.target = (get_display_name_and_target f (f.extension.map strToLower)).2
      ∧ c.name_lower = (f.stem.map strToLower).getD "" := by
  simp only [candidateOf] at h
  repeat' split at h
  all_goals simp_all
  all_goals (subst_eqs; simp)

lemma mem_runScan {icon : String → String → Option String}
    {dirs : List (ProgramSource × List FileRec)} {e : ProgramEntry}
    (he : e ∈ runScan icon dirs) :
    ∃ d ∈ dirs, ∃ f ∈ d.2, ∃ c, candidateOf d.1 f = some c ∧ e = mkEntry icon c := by
  have he' : e ∈ (scanWorking icon dirs).1 := by
    have := (List.mem_insertionSort entryRel).mp he
    simpa [runScan, finalizeSort] using this
  rw [congrArg Prod.fst (scanWorking_eq icon dirs)] at he'
  obtain ⟨c, hc, rfl⟩ := List.mem_map.mp he'
  have hcall : c ∈ allCandidates dirs := (dedupFirst_sublist _ _).subset hc
  simp only [allCandidates, List.mem_flatMap, List.mem_filterMap] at hcall
  obtain ⟨d, hd, f, hf, hcand⟩ := hcall
  exact ⟨d, hd, f, hf, c, hcand, rfl⟩

/-- C5: within one scan's published output no two entries share a
lowercased display name, and the working list is exactly the
first-occurrence dedup, in source-priority-then-traversal order, of the
filtered candidate stream (so the first candidate with a given lowercased
display name produces the entry and all later ones are skipped). -/
theorem scan_dedup_unique (icon : String → String → Option String)
    (dirs : List (ProgramSource × List FileRec)) :
    ((runScan icon dirs).map (fun e => strToLower e.display_name)).Nodup
    ∧ (scanWorking icon dirs).1 = (dedupFirst (allCandidates dirs) []).map (mkEntry icon) := by
  have hw := congrArg Prod.fst (scanWorking_eq icon dirs)
  refine ⟨?_, hw⟩
  have hperm : List.Perm (runScan icon dirs) (scanWorking icon dirs).1 :=
    List.perm_insertionSort entryRel _
  refine ((hperm.map (fun e => strToLower e.display_name)).nodup_iff).mpr ?_
  rw [hw, List.map_map]
  have hkey : ((fun e => strToLower e.display_name) ∘ mkEntry icon) = candKey := rfl
  rw [hkey]
  exact (dedupFirst_key_props (allCandidates dirs) []).1

/-- C6: a shortcut file whose lnk resolution failed (parse error or caught
panic) does not abort processing and, when it passes the extension,
exclusion and dedup filters, yields exactly one appended entry whose
display name is the file's own stem and whose stored path — also handed to
icon extraction as target — is the shortcut file's own path. -/
theorem malformed_shortcut_fallback (icon : String → String → Option String)
    (st : List ProgramEntry × List String) (f : FileRec) (s : String)
    (h1 : f.isFile = true) (h2 : f.extension.map strToLower = some "lnk")
    (h3 : f.lnk = none) (h4 : f.stem = some s)
    (h5 : excludedStem (strToLower s) = false)
    (h6 : strToLower s ∉ st.2) :
    processFile icon ProgramSource.StartMenu st f
      = (st.1 ++ [{ path := f.path, name := strToLower s, display_name := s,
                    source := ProgramSource.StartMenu, icon_path := icon f.path s }],
         strToLower s :: st.2) := by
  simp [processFile, h1, h2, h3, h4, h5, h6, get_display_name_and_target, extensionsFor]

/-- C6 witness: a concrete malformed .lnk file appended as its own stem and
path. -/
theorem malformed_shortcut_fallback_witness :
    processFile noIcon ProgramSource.StartMenu ([], []) fooRec
      = ([{ path := "C:/sm/Foo.lnk", name := "foo", display_name := "Foo",
            source := ProgramSource.StartMenu, icon_path := none }], ["foo"]) := by
  have h := malformed_shortcut_fallback noIcon ([], []) fooRec "Foo"
    rfl (by decide) rfl rfl (by decide) (by decide)
  simpa using h

/-- C7: load_cache returns true and publishes the parsed snapshot contents
as entries and count exactly when the snapshot parses; on a missing,
unreadable or unparseable snapshot it returns false and leaves the state
unchanged, the three failure shapes being indistinguishable. -/
theorem load_cache_spec (disk : CacheRead) (st : StoreState) :
    ((load_cache disk st).1 = true ↔ ∃ l, disk = CacheRead.parsed l)
    ∧ (∀ l, disk = CacheRead.parsed l →
        (load_cache disk st).2
          = { entries := l, indexed_count := l.length, is_indexing := st.is_indexing })
    ∧ ((load_cache disk st).1 = false → (load_cache disk st).2 = st)
    ∧ load_cache CacheRead.missing st = load_cache CacheRead.unreadable st
    ∧ load_cache CacheRead.missing st = load_cache CacheRead.unparseable st := by
  cases disk <;> simp [load_cache]

/-- C7 witness: a parsed snapshot loads and reports success. -/
theorem load_cache_spec_witness :
    (load_cache (CacheRead.parsed [eKeep]) newStore).1 = true :=
  (load_cache_spec (CacheRead.parsed [eKeep]) newStore).1.mpr ⟨[eKeep], rfl⟩

/-- C9: every store state reachable through construction, cache loading,
scan start and scan completion has its published count equal to the length
of its published entry list. -/
theorem count_matches_entries (st : StoreState) (h : Reachable st) :
    st.indexed_count = st.entries.length := by
  induction h with
  | init => rfl
  | load d st' _ ih => cases d <;> simp [load_cache] <;> exact ih
  | begin st' _ ih => simpa [begin_scan] using ih
  | finish ps st' _ ih => simp [finish_scan]

/-- C9 witness: the invariant at a concrete reachable state (a completed
scan that published one entry). -/
theorem count_matches_entries_witness :
    (finish_scan [eKeep] newStore).indexed_count
      = (finish_scan [eKeep] newStore).entries.length :=
  count_matches_entries _ (Reachable.finish [eKeep] newStore Reachable.init)

lemma stem_getD_ne_empty {f : FileRec} (hs : f.stem ≠ some "") :
    f.stem.getD "Unknown" ≠ "" := by
  cases h : f.stem with
  | none => simp
  | some s =>
    simp only [Option.getD_some]
    intro he
    exact hs (he ▸ h)

lemma gdnt_display_ne_empty {f : FileRec} (hs : f.stem ≠ some "")
    (ext : Option String) : (get_display_name_and_target f ext).1 ≠ "" := by
  unfold get_display_name_and_target
  split
  · cases hl : f.lnk with
    | none => simpa using stem_getD_ne_empty hs
    | some l =>
      cases hn : l.name with
      | none => simpa [Option.filter, hn] using stem_getD_ne_empty hs
      | some n =>
        by_cases h0 : n = ""
        · subst h0
          simpa [Option.filter, hn] using stem_getD_ne_empty hs
        · simp [Option.filter, hn, h0]
  · simpa using stem_getD_ne_empty hs

/-- C8: every entry a scan produces has a non-empty display name (given
the walked files never report an empty stem, which Rust path semantics
guarantee for files carrying an extension): an absent or empty shortcut
name falls back to the file stem, and an unobtainable stem falls back to
the fixed placeholder "Unknown". -/
theorem display_name_never_empty :
    (∀ (icon : String → String → Option String)
        (dirs : List (ProgramSource × List FileRec)),
      (∀ d ∈ dirs, ∀ f ∈ d.2, f.stem ≠ some "") →
      ∀ e ∈ runScan icon dirs, e.display_name ≠ "")
    ∧ ∀ (f : FileRec) (ext : Option String) (l : LnkData),
        f.lnk = some l → (l.name = none ∨ l.name = some "") →
        (get_display_name_and_target f ext).1 = f.stem.getD "Unknown" := by
  constructor
  · intro icon dirs hstem e he
    obtain ⟨d, hd, f, hf, c, hcand, rfl⟩ := mem_runScan he
    have hc := candidateOf_some hcand
    have hdisp : (mkEntry icon c).display_name
        = (get_display_name_and_target f (f.extension.map strToLower)).1 := hc.2.2.1
    rw [hdisp]
    exact gdnt_display_ne_empty (hstem d hd f hf) _
  · intro f ext l hl hname
    unfold get_display_name_and_target
    split
    · rcases hname with h | h <;> simp [hl, h, Option.filter]
    · rfl

/-- C8 witness: the malformed-shortcut entry has a non-empty display name,
and a resolved shortcut with an absent embedded name falls back to its
stem. -/
theorem display_name_never_empty_witness :
    ({ path := "C:/sm/Foo.lnk", name := "foo", display_name := "Foo",
       source := ProgramSource.StartMenu, icon_path := none } : ProgramEntry).display_name ≠ ""
    ∧ (get_display_name_and_target bazRec (some "lnk")).1 = "Baz" := by
  constructor
  · exact display_name_never_empty.1 noIcon [(ProgramSource.StartMenu, [fooRec])]
      (by decide) _ (by decide)
  · have h := display_name_never_empty.2 bazRec (some "lnk")
      { name := none, localBasePath := none } rfl (Or.inl rfl)
    simpa using h

/-- C10: every published entry records the walked file's own filesystem
path — for a shortcut the .lnk file itself, even when resolution produced a
different target — with the resolved target passed only to icon
extraction; consequently the published list with icon paths erased is the
same whatever the icon extractor returns. -/
theorem stored_path_is_walked_file (icon icon2 : String → String → Option String)
    (dirs : List (ProgramSource × List FileRec)) :
    (∀ e ∈ runScan icon dirs, ∃ d ∈ dirs, ∃ f ∈ d.2, ∃ c,
        candidateOf d.1 f = some c ∧ c.file = f ∧ e = mkEntry icon c
        ∧ e.path = f.path ∧ e.icon_path = icon c.target c.display_name)
    ∧ (runScan icon dirs).map stripIcon = (runScan icon2 dirs).map stripIcon := by
  constructor
  · intro e he
    obtain ⟨d, hd, f, hf, c, hcand, rfl⟩ := mem_runScan he
    have hc := candidateOf_some hcand
    exact ⟨d, hd, f, hf, c, hcand, hc.1,  rfl,
      by simp [mkEntry, hc.1], rfl⟩
  · have hmap : ∀ ic : String → String → Option String,
        (runScan ic dirs).map stripIcon
          = ((scanWorking ic dirs).1.map stripIcon).insertionSort entryRel := by
      intro ic
      exact List.map_insertionSort (r := entryRel) (s := entryRel) stripIcon _
        (fun a _ b _ => Iff.rfl)
    have hw : (scanWorking icon dirs).1.map stripIcon
        = (scanWorking icon2 dirs).1.map stripIcon := by
      rw [congrArg Prod.fst (scanWorking_eq icon dirs),
        congrArg Prod.fst (scanWorking_eq icon2 dirs),
        List.map_map, List.map_map]
      exact List.map_inj_left.mpr (fun c _ => rfl)
    rw [hmap icon, hmap icon2, hw]

/-- C10 witness: for a resolved shortcut the published entry's path is the
.lnk file's own path, and erasing icon paths makes the published lists of
two different icon extractors coincide. -/
theorem stored_path_is_walked_file_witness :
    entryBar.path = barRec.path
    ∧ (runScan noIcon [(ProgramSource.StartMenu, [barRec])]).map stripIcon
      = (runScan tagIcon [(ProgramSource.StartMenu, [barRec])]).map stripIcon := by
  constructor
  · obtain ⟨d, hd, f, hf, c, hcand, hcfile, hemk, hpath, hicon⟩ :=
      (stored_path_is_walked_file noIcon tagIcon
        [(ProgramSource.StartMenu, [barRec])]).1 entryBar (by decide)
    have hd' : d = (ProgramSource.StartMenu, [barRec]) := by simpa using hd
    subst hd'
    have hf' : f = barRec := by simpa using hf
    subst hf'
    exact hpath
  · exact (stored_path_is_walked_file noIcon tagIcon
      [(ProgramSource.StartMenu, [barRec])]).2
